import Mathlib

/-!
Verification of the `microcore` file-storage component
(`src/microcore/file_storage.py`, class `Storage`).

The Python code is shallowly embedded as follows.

* Python strings are Lean `String`s; where symbolic reasoning is needed the
  helper functions work on the underlying `List Char` (`String.data`).
* The filesystem seen by `Storage.read` / `Storage.write` / `Storage.read_json`
  is an association list from path strings to file contents
  (`SFS := List (String × String)`); directories are implicit (`mkdir` calls
  are no-ops in this flat-key model).
* `Storage.clean` and `Storage.copy` work on whole directory trees, so they
  are embedded over a second filesystem model `FSys` whose paths are lists of
  path components, with explicit directory entries.
* External libraries used by the source (`chardet`, `json`, `fnmatch`) are
  treated as follows: `chardet.detect`-based decoding is recorded as a
  `DecodeMode.chardetDetect` marker (the byte-level heuristics are a black
  box), `json.loads` is a parameter of `read_json`, and `fnmatch.fnmatch`
  is implemented (`*`, `?`, `[...]`/`[!...]` classes, full-string match).
-/

deriving instance DecidableEq for Except

namespace Storage

/-! ### Character-list string helpers (Python `str` operations) -/

/-- Python `sub in s` for a single-character `sub` (used for `"." in name`). -/
def strContains (s : String) (c : Char) : Bool :=
  s.data.contains c

/-- Python `s.startswith(pre)`. -/
def strStartsWith (s pre : String) : Bool :=
  pre.data.isPrefixOf s.data

/-- Split a character list at its last occurrence of `'.'`:
returns `some (before, after)` with `l = before ++ '.' :: after` and
`'.' ∉ after`, or `none` when `l` has no dot. -/
def splitLastDot : List Char → Option (List Char × List Char)
  | [] => none
  | c :: cs =>
    match splitLastDot cs with
    | some (a, b) => some (c :: a, b)
    | none => if c = '.' then some ([], cs) else none

/-- `pathlib.PurePath.suffix` on a path given as a character list: the part of
the last path component from its last dot on, empty when the last component
has no dot, starts with a dot, or ends with its only dot. -/
def pySuffixChars (l : List Char) : List Char :=
  match splitLastDot l with
  | none => []
  | some (a, b) =>
    if a ≠ [] ∧ a.getLast? ≠ some '/' ∧ b ≠ [] ∧ ¬ b.contains '/' then '.' :: b
    else []

/-- `str(pathlib.Path(name).suffix)` (faithful for names in normal form,
see `NormalName`). -/
def pySuffix (name : String) : String :=
  ⟨pySuffixChars name.data⟩

/-- `str(pathlib.Path(name).with_suffix(""))`: the name with its suffix
removed (faithful for names in normal form, see `NormalName`). -/
def pyWithSuffixEmpty (name : String) : String :=
  ⟨name.data.take (name.data.length - (pySuffixChars name.data).length)⟩

/-- Split a character list on a separator character (Python `str.split` with a
one-character separator). -/
def splitOnChar (sep : Char) : List Char → List (List Char)
  | [] => [[]]
  | a :: rest =>
    match splitOnChar sep rest with
    | [] => [[]]
    | g :: gs => if a = sep then [] :: g :: gs else (a :: g) :: gs

/-- Names on which the embedding of `pathlib.Path` string round-trips exactly
(`str(Path(name)) == name`): nonempty, relative, no empty or `"."`
components.  All claims about `read`/`write` name handling are stated on this
domain, where the `pathlib` normalisation performed by the source is the
identity. -/
def NormalName (name : String) : Prop :=
  name.data ≠ [] ∧
    ∀ comp ∈ splitOnChar '/' name.data, comp ≠ [] ∧ comp ≠ ['.']

instance (name : String) : Decidable (NormalName name) := by
  unfold NormalName; infer_instance

/-! ### The flat filesystem model used by `read` / `write` / `read_json`

An association list from path strings to file text contents.  A key present
in the list is an existing regular file (`is_file`); `mkdir` is a no-op. -/

/-- Flat filesystem: path string ↦ file content. -/
abbrev SFS : Type := List (String × String)

/-- Look a path up in the flat filesystem. -/
def lookupFS : SFS → String → Option String
  | [], _ => none
  | (k, v) :: rest, key => if key = k then some v else lookupFS rest key

/-- `Path(...).is_file()` in the flat model. -/
def isFile (fs : SFS) (key : String) : Bool :=
  (lookupFS fs key).isSome

/-- Remove a path from the flat filesystem. -/
def removeFS (fs : SFS) (key : String) : SFS :=
  List.filter (fun p => p.1 ≠ key) fs

/-- `Path(...).write_text(content)`: create or overwrite a file. -/
def writeText (fs : SFS) (key content : String) : SFS :=
  (key, content) :: removeFS fs key

/-- `os.rename(old, new)` (only called by the source when `old` exists and
`new` does not). -/
def renameFS (fs : SFS) (old new : String) : SFS :=
  match lookupFS fs old with
  | some v => writeText (removeFS fs old) new v
  | none => fs

/-- The configuration values `Storage` reads lazily from `config()`:
`STORAGE_PATH` (as the string `str(self.path)`, an absolute path without a
trailing slash), `STORAGE_DEFAULT_FILE_EXT` (already dot-normalised, as
returned by the `default_ext` property), and `DEFAULT_ENCODING` (where
`none` stands for Python `None`). -/
structure SConfig where
  root : String
  defaultExt : String
  defaultEncoding : Option String

/-- `str(self.path / name)` for a relative `name` in normal form. -/
def joinRoot (root name : String) : String :=
  root ++ "/" ++ name

/-- Python `a or b` on optional strings (`None` and `""` are falsy). -/
def pyOr (a b : Option String) : Option String :=
  match a with
  | some s => if s = "" then b else some s
  | none => b

/-- The numbered-sibling name `f"{base_name}_{counter}{ext}"` from
`Storage.write`. -/
def numberedName (base ext : String) (counter : Nat) : String :=
  base ++ "_" ++ Nat.repr counter ++ ext

/-- The collision loop of `Storage.write` (`counter = 1; while True: ...`):
returns the first `n ≥ counter` such that `mk n` is not an existing file.
Structural fuel replaces the unbounded `while`; `firstFree` hands it enough
fuel for a free name to be found (see `firstFree_not_isFile`). -/
def firstFreeAux (fs : SFS) (mk : Nat → String) : Nat → Nat → Nat
  | 0, counter => counter
  | fuel + 1, counter =>
    if isFile fs (mk counter) then firstFreeAux fs mk fuel (counter + 1) else counter

/-- The value of `counter` after the collision loop of `Storage.write`. -/
def firstFree (fs : SFS) (mk : Nat → String) : Nat :=
  firstFreeAux fs mk (fs.length + 1) 1

/-- `ext = Path(name).suffix or self.default_ext` from `Storage.write`
(Python `or`: an empty suffix is falsy). -/
def effExt (cfg : SConfig) (name : String) : String :=
  if pySuffix name = "" then cfg.defaultExt else pySuffix name

/-- `Storage.write(name, content, rewrite_existing, backup_existing,
encoding)` (lines 88–123): returns the filesystem after the call and the
returned effective file name.  `content = none` models an omitted `content`
argument (then `name` is treated as the content and the name becomes
`out<default_ext>`). -/
def write (cfg : SConfig) (fs : SFS) (name : String) (content : Option String)
    (rewrite_existing backup_existing : Bool) : SFS × String :=
  let nc : String × String :=
    match content with
    | none => ("out" ++ cfg.defaultExt, name)
    | some c => (name, c)
  let base : String := pyWithSuffixEmpty nc.1
  let ext : String := effExt cfg nc.1
  let fileName : String := base ++ ext
  let step : SFS × String :=
    if isFile fs (joinRoot cfg.root fileName) ∧ (backup_existing ∨ ¬ rewrite_existing) then
      let n : Nat := firstFree fs (fun k => joinRoot cfg.root (numberedName base ext k))
      let fileName1 : String := numberedName base ext n
      if ¬ rewrite_existing then (fs, fileName1)
      else if backup_existing then
        (renameFS fs (joinRoot cfg.root fileName) (joinRoot cfg.root fileName1), fileName)
      else (fs, fileName)
    else (fs, fileName)
  (writeText step.1 (joinRoot cfg.root step.2) nc.2, step.2)

/-- The error cases surfaced by the embedded operations. -/
inductive PyErr where
  | fileNotFound : PyErr
  | jsonError : String → PyErr
deriving DecidableEq

/-- How `Storage.read` decodes the file it opens: with an explicit text
encoding, or through the raw-bytes + `chardet.detect` branch. -/
inductive DecodeMode where
  | explicitEnc : String → DecodeMode
  | chardetDetect : DecodeMode
deriving DecidableEq

/-- Python `".".join(groups)` on character lists. -/
def joinDots : List (List Char) → List Char
  | [] => []
  | [g] => g
  | g :: gs => g ++ '.' :: joinDots gs

/-- The path string `Storage.read` (lines 43–55) passes to `open`: the
extension-defaulting logic applied to `name`.  Absolute and `"./"`-prefixed
names are passed through unchanged. -/
def readTarget (cfg : SConfig) (fs : SFS) (name : String) : String :=
  if strStartsWith name "/" = false ∧ strStartsWith name "./" = false then
    if strContains name '.' then
      let parts : List (List Char) := splitOnChar '.' name.data
      let stem : String := ⟨joinDots parts.dropLast⟩
      let ext : String := ⟨'.' :: (parts.getLast? |>.getD [])⟩
      joinRoot cfg.root (stem ++ ext)
    else
      let ext : String :=
        if isFile fs (joinRoot cfg.root (name ++ cfg.defaultExt)) = false then ""
        else cfg.defaultExt
      joinRoot cfg.root (name ++ ext)
  else name

/-- The decode mode `Storage.read` ends up using:
`encoding = encoding or self.default_encoding`, then the `chardet` branch
exactly when the result is `None`. -/
def readModeOf (cfg : SConfig) (encoding : Option String) : DecodeMode :=
  match pyOr encoding cfg.defaultEncoding with
  | none => .chardetDetect
  | some e => .explicitEnc e

/-- `Storage.read(name, encoding)` (lines 43–64): returns the file content
together with the decode mode used, or a not-found error.  `encoding = none`
models an omitted/`None` encoding argument. -/
def read (cfg : SConfig) (fs : SFS) (name : String) (encoding : Option String) :
    Except PyErr (String × DecodeMode) :=
  match lookupFS fs (readTarget cfg fs name) with
  | none => .error .fileNotFound
  | some content => .ok (content, readModeOf cfg encoding)

/-- `Storage.read_json(name, default)` (lines 77–83).  `json.loads` is the
external parameter `loads` (producing a parse error it raises, which the
source does not catch); `default = none` models an omitted/`None` default. -/
def read_json {V : Type} (loads : String → Except String V) (cfg : SConfig)
    (fs : SFS) (name : String) (default : Option V) : Except PyErr V :=
  match read cfg fs name none with
  | .error .fileNotFound =>
    match default with
    | some d => .ok d
    | none => .error .fileNotFound
  | .error e => .error e
  | .ok sm =>
    match loads sm.1 with
    | .ok v => .ok v
    | .error m => .error (.jsonError m)

/-- `Storage.abs_path(name)` (lines 38–41) for string names in normal form
or absolute. -/
def abs_path (cfg : SConfig) (name : String) : String :=
  if strStartsWith name "/" then name else joinRoot cfg.root name

/-! ### The tree filesystem model used by `clean` and `copy`

Paths are lists of components of an absolute path (`/a/b` is `["a", "b"]`);
directories are explicit.  `Path.resolve()` is lexical normalisation
(symbolic links are outside the model; the configured root is assumed
absolute). -/

/-- A path as the component list of an absolute path. -/
abbrev CPath : Type := List String

/-- `Path.resolve()` without symlink processing: drop `"."`/empty components
and fold `".."` into its parent (at the filesystem root `".."` stays put). -/
def resolveComps (l : CPath) : CPath :=
  l.foldl
    (fun acc c =>
      if c = "." ∨ c = "" then acc
      else if c = ".." then acc.dropLast
      else acc ++ [c])
    []

/-- `pathlib.PurePath.parents` as a list of component paths: every ancestor
of `p`, excluding `p` itself (for `/a/b` these are `/a` and `/`). -/
def pyParents (p : CPath) : List CPath :=
  p.inits.filter (fun q => q ≠ p)

/-- Tree filesystem: existing directories and regular files with contents. -/
structure FSys where
  dirs : List CPath
  files : List (CPath × String)
deriving DecidableEq

/-- Look a path up among the files of a tree filesystem. -/
def lookupP : List (CPath × String) → CPath → Option String
  | [], _ => none
  | (k, v) :: rest, key => if key = k then some v else lookupP rest key

/-- `full_path = (self.path / path).resolve()` from `Storage.clean`
(`Path.__truediv__` discards the left side when the right side is
absolute). -/
def cleanTarget (rootC : CPath) (argAbs : Bool) (argC : CPath) : CPath :=
  resolveComps (if argAbs then argC else rootC ++ argC)

/-- `shutil.rmtree(full)`: remove `full` and everything below it. -/
def rmtree (fs : FSys) (full : CPath) : FSys :=
  ⟨fs.dirs.filter (fun d => !(full.isPrefixOf d)),
    fs.files.filter (fun f => !(full.isPrefixOf f.1))⟩

/-- `Storage.clean(path)` (lines 125–137).  `argAbs`/`argC` are the path
argument (`true` when it is absolute, in which case `self.path / path` is
the argument itself); the result is the validation error or the filesystem
after the call. -/
def clean (rootC : CPath) (fs : FSys) (argAbs : Bool) (argC : CPath) :
    Except String FSys :=
  let full : CPath := cleanTarget rootC argAbs argC
  if resolveComps rootC ∈ pyParents full then
    if full ∈ fs.dirs then .ok (rmtree fs full)
    else .ok fs
  else .error "Cannot delete directories outside the storage path."

/-! ### `fnmatch.fnmatch` (Unix shell-style wildcards, full-string match) -/

/-- Scan a character-class body for its closing `']'`: returns the class
contents and the rest of the pattern. -/
def findClose : List Char → Option (List Char × List Char)
  | [] => none
  | ']' :: rest => some ([], rest)
  | c :: rest => (findClose rest).map (fun p => (c :: p.1, p.2))

/-- Parse the pattern after a `'['`: negation flag, class contents, rest of
the pattern (`none` when there is no closing `']'`, in which case `'['` is a
literal).  A `']'` directly after `'['` (or after `'[!'`) belongs to the
class. -/
def splitBracket : List Char → Option (Bool × List Char × List Char)
  | '!' :: rest =>
    match rest with
    | ']' :: rest2 => (findClose rest2).map (fun p => (true, ']' :: p.1, p.2))
    | _ => (findClose rest).map (fun p => (true, p.1, p.2))
  | ']' :: rest2 => (findClose rest2).map (fun p => (false, ']' :: p.1, p.2))
  | l => (findClose l).map (fun p => (false, p.1, p.2))

/-- Does a character match a character-class body (ranges `a-b` and literal
characters)? -/
def classMatch : List Char → Char → Bool
  | a :: '-' :: b :: rest, c =>
    (decide (a ≤ c) && decide (c ≤ b)) || classMatch rest c
  | a :: rest, c => a == c || classMatch rest c
  | [], _ => false

/-- The wildcard matcher behind `fnmatch.fnmatch pat` applied to a name:
`*` matches any (possibly empty) sequence, `?` any single character,
`[...]`/`[!...]` a character class.  Structural fuel stands in for the
regex engine; every step shortens pattern-plus-name, so
`|pat| + |name| + 1` fuel (as passed by `fnmatch`) is never exhausted. -/
def fnmatchAux : Nat → List Char → List Char → Bool
  | 0, _, _ => false
  | fuel + 1, pat, s =>
    match pat, s with
    | [], [] => true
    | [], _ :: _ => false
    | '*' :: ps, [] => fnmatchAux fuel ps []
    | '*' :: ps, c :: cs =>
      fnmatchAux fuel ps (c :: cs) || fnmatchAux fuel ('*' :: ps) cs
    | '?' :: ps, _ :: cs => fnmatchAux fuel ps cs
    | '?' :: _, [] => false
    | '[' :: rest, s2 =>
      match splitBracket rest with
      | some ncr =>
        match s2 with
        | [] => false
        | c :: cs => (classMatch ncr.2.1 c != ncr.1) && fnmatchAux fuel ncr.2.2 cs
      | none =>
        match s2 with
        | [] => false
        | c :: cs => (c == '[') && fnmatchAux fuel rest cs
    | _ :: _, [] => false
    | p :: ps, c :: cs => (p == c) && fnmatchAux fuel ps cs

/-- `fnmatch.fnmatch(name, pat)` on a POSIX system (where `normcase` is the
identity). -/
def fnmatch (name pat : String) : Bool :=
  fnmatchAux (pat.data.length + name.data.length + 1) pat.data name.data

/-! ### `Storage.copy` (lines 139–165) -/

/-- `path.relative_to(src)` for `src` a prefix of `path`. -/
def relTo (p src : CPath) : CPath :=
  p.drop src.length

/-- `PurePath.as_posix()` of a relative component path. -/
def asPosix : CPath → String
  | [] => ""
  | [c] => c
  | c :: cs => c ++ "/" ++ asPosix cs

/-- `any(fnmatch.fnmatch(rel, pattern) for pattern in exceptions)`. -/
def matchAny (excs : List String) (rel : String) : Bool :=
  excs.any (fun pat => fnmatch rel pat)

/-- `p.mkdir(parents=True, exist_ok=True)`: the directory and all its
ancestors exist afterwards. -/
def mkdirParents (fs : FSys) (p : CPath) : FSys :=
  ⟨p.inits ++ fs.dirs, fs.files⟩

/-- `shutil.copy2` target effect in the model: create or overwrite the file
at `p`. -/
def insertFile (fs : FSys) (p : CPath) (content : String) : FSys :=
  ⟨fs.dirs, (p, content) :: fs.files.filter (fun q => !(q.1 == p))⟩

/-- Is `p` strictly below `src`? -/
def strictUnder (src p : CPath) : Bool :=
  src.isPrefixOf p && !(src == p)

/-- The body of the `for path in src.rglob('*')` loop of `Storage.copy`:
skip the entry when its path relative to `src` matches an exclusion pattern,
otherwise mirror a directory by creation and a file by copy (after creating
its parent). -/
def copyStep (src dest : CPath) (excs : List String) (fs : FSys)
    (entry : CPath × Option String) : FSys :=
  if matchAny excs (asPosix (relTo entry.1 src)) then fs
  else
    match entry.2 with
    | none => mkdirParents fs (dest ++ relTo entry.1 src)
    | some c =>
      insertFile (mkdirParents fs (dest ++ relTo entry.1 src).dropLast)
        (dest ++ relTo entry.1 src) c

/-- `src.rglob('*')`: every directory and file strictly below `src`,
directories first (the model's copy loop is order-insensitive; the walk is a
snapshot, faithful when `dest` does not overlap `src`). -/
def rglobEntries (fs : FSys) (src : CPath) : List (CPath × Option String) :=
  (fs.dirs.filter (fun d => strictUnder src d)).map (fun d => (d, none))
    ++ (fs.files.filter (fun f => strictUnder src f.1)).map (fun f => (f.1, some f.2))

/-- `Storage.copy(src, dest, exceptions)` (lines 139–165).  `srcAbs`/`srcC`
and `destAbs`/`destC` are the two path arguments (flag true when absolute;
a relative argument is joined onto the root). -/
def copy (rootC : CPath) (fs : FSys) (srcAbs : Bool) (srcC : CPath)
    (destAbs : Bool) (destC : CPath) (excs : List String) : FSys :=
  let src : CPath := if srcAbs then srcC else rootC ++ srcC
  let dest : CPath := if destAbs then destC else rootC ++ destC
  if src ∈ fs.dirs then
    let fs1 : FSys := mkdirParents fs dest
    (rglobEntries fs1 src).foldl (copyStep src dest excs) fs1
  else
    match lookupP fs.files src with
    | some c =>
      if matchAny excs (src.getLastD "") then fs
      else
        let dest1 : CPath := if dest ∈ fs.dirs then dest ++ [src.getLastD ""] else dest
        insertFile (mkdirParents fs dest1.dropLast) dest1 c
    | none => fs

/-! ### Auxiliary definitions used only by the proofs -/

/-- The decimal digit characters of `n`, most significant first. -/
def decDigits (n : Nat) : List Char :=
  if n < 10 then [Nat.digitChar n]
  else decDigits (n / 10) ++ [Nat.digitChar (n % 10)]
termination_by n
decreasing_by exact Nat.div_lt_self (by omega) (by omega)

/-- The file write performed by one iteration of the `rglob` loop of
`copy`, if any: target path and content. -/
def entryWrite (src dest : CPath) (excs : List String) (e : CPath × Option String) :
    Option (CPath × String) :=
  e.2.bind (fun c =>
    if matchAny excs (asPosix (relTo e.1 src)) = true then none
    else some (dest ++ relTo e.1 src, c))

/-- The content an iteration writes to the fixed path `k`, if any. -/
def writesTo (src dest : CPath) (excs : List String) (e : CPath × Option String)
    (k : CPath) : Option String :=
  (entryWrite src dest excs e).bind (fun pc => if pc.1 = k then some pc.2 else none)

/-- The last `some` value produced by `w` over a list processed left to
right. -/
def lastWrite (w : CPath × Option String → Option String) :
    List (CPath × Option String) → Option String
  | [] => none
  | e :: t =>
    match lastWrite w t with
    | some c => some c
    | none => w e

/-! ### Lemmas: flat filesystem -/

theorem lookupFS_writeText_self (fs : SFS) (k c : String) :
    lookupFS (writeText fs k c) k = some c := by
  simp [writeText, lookupFS]

theorem lookupFS_removeFS (fs : SFS) (k key : String) (h : key ≠ k) :
    lookupFS (removeFS fs k) key = lookupFS fs key := by
  induction fs with
  | nil => rfl
  | cons p rest ih =>
    by_cases hk : p.1 = k
    · have h2 : removeFS (p :: rest) k = removeFS rest k := by
        simp [removeFS, List.filter_cons, hk]
      have h3 : key ≠ p.1 := fun hkey => h (hkey.trans hk)
      rw [h2, ih, lookupFS, if_neg h3]
    · have h2 : removeFS (p :: rest) k = p :: removeFS rest k := by
        simp [removeFS, List.filter_cons, hk]
      rw [h2, lookupFS, lookupFS, ih]

theorem lookupFS_writeText_ne (fs : SFS) (k c key : String) (h : key ≠ k) :
    lookupFS (writeText fs k c) key = lookupFS fs key := by
  simp [writeText, lookupFS, if_neg h, lookupFS_removeFS fs k key h]

theorem isFile_writeText_self (fs : SFS) (k c : String) :
    isFile (writeText fs k c) k = true := by
  simp [isFile, lookupFS_writeText_self]

theorem lookupFS_renameFS_new (fs : SFS) (old new : String) (v : String)
    (hv : lookupFS fs old = some v) :
    lookupFS (renameFS fs old new) new = some v := by
  simp [renameFS, hv, lookupFS_writeText_self]

theorem mem_keys_of_lookupFS {fs : SFS} {k : String}
    (h : (lookupFS fs k).isSome) : k ∈ fs.map Prod.fst := by
  induction fs with
  | nil => simp [lookupFS] at h
  | cons p rest ih =>
    by_cases hk : k = p.1
    · simp [hk]
    · simp only [lookupFS, if_neg hk] at h
      simpa using Or.inr (ih h)

/-! ### Lemmas: injectivity of `Nat.repr` -/

theorem decDigits_of_lt {n : Nat} (h : n < 10) : decDigits n = [Nat.digitChar n] := by
  conv_lhs => rw [decDigits]
  rw [if_pos h]

theorem decDigits_of_ge {n : Nat} (h : ¬ n < 10) :
    decDigits n = decDigits (n / 10) ++ [Nat.digitChar (n % 10)] := by
  conv_lhs => rw [decDigits]
  rw [if_neg h]

theorem decDigits_ne_nil (n : Nat) : decDigits n ≠ [] := by
  by_cases h : n < 10
  · rw [decDigits_of_lt h]; simp
  · rw [decDigits_of_ge h]; simp

theorem toDigitsCore_eq_decDigits :
    ∀ (fuel n : Nat) (acc : List Char), n < fuel →
      Nat.toDigitsCore 10 fuel n acc = decDigits n ++ acc := by
  intro fuel
  induction fuel with
  | zero => omega
  | succ fuel ih =>
    intro n acc hn
    by_cases h10 : n / 10 = 0
    · have hlt : n < 10 := by omega
      simp [Nat.toDigitsCore, h10, decDigits_of_lt hlt, Nat.mod_eq_of_lt hlt]
    · have hge : ¬ n < 10 := by omega
      have hdiv : n / 10 < fuel := by
        have h2 : n / 10 < n := Nat.div_lt_self (by omega) (by omega)
        omega
      rw [decDigits_of_ge hge]
      simp [Nat.toDigitsCore, h10, ih (n / 10) (Nat.digitChar (n % 10) :: acc) hdiv]

theorem digitChar_inj_lt {a b : Nat} (ha : a < 10) (hb : b < 10)
    (h : Nat.digitChar a = Nat.digitChar b) : a = b := by
  have key : ∀ x y : Fin 10, Nat.digitChar x.val = Nat.digitChar y.val → x = y := by decide
  have := key ⟨a, ha⟩ ⟨b, hb⟩ h
  simpa [Fin.ext_iff] using this

theorem decDigits_inj : ∀ m n : Nat, decDigits m = decDigits n → m = n := by
  intro m
  induction m using Nat.strong_induction_on with
  | _ m ih =>
    intro n h
    by_cases hm : m < 10 <;> by_cases hn : n < 10
    · rw [decDigits_of_lt hm, decDigits_of_lt hn] at h
      exact digitChar_inj_lt hm hn (by simpa using h)
    · rw [decDigits_of_lt hm, decDigits_of_ge hn] at h
      have hlen := congrArg List.length h
      rw [List.length_append] at hlen
      simp only [List.length_singleton] at hlen
      have h0 : (decDigits (n / 10)).length = 0 := by omega
      exact absurd (List.length_eq_zero.mp h0) (decDigits_ne_nil _)
    · rw [decDigits_of_ge hm, decDigits_of_lt hn] at h
      have hlen := congrArg List.length h
      rw [List.length_append] at hlen
      simp only [List.length_singleton] at hlen
      have h0 : (decDigits (m / 10)).length = 0 := by omega
      exact absurd (List.length_eq_zero.mp h0) (decDigits_ne_nil _)
    · rw [decDigits_of_ge hm, decDigits_of_ge hn] at h
      have hlen : ([Nat.digitChar (m % 10)] : List Char).length
          = ([Nat.digitChar (n % 10)] : List Char).length := rfl
      obtain ⟨h1, h2⟩ := List.append_inj' h hlen
      have hdm : m / 10 < m := Nat.div_lt_self (by omega) (by omega)
      have hq := ih (m / 10) hdm (n / 10) h1
      have hr : m % 10 = n % 10 :=
        digitChar_inj_lt (Nat.mod_lt _ (by omega)) (Nat.mod_lt _ (by omega))
          (by simpa using h2)
      omega

theorem natRepr_inj {m n : Nat} (h : Nat.repr m = Nat.repr n) : m = n := by
  have hm : Nat.repr m = (decDigits m).asString := by
    simp only [Nat.repr, Nat.toDigits]
    rw [toDigitsCore_eq_decDigits (m + 1) m [] (by omega)]
    simp
  have hn : Nat.repr n = (decDigits n).asString := by
    simp only [Nat.repr, Nat.toDigits]
    rw [toDigitsCore_eq_decDigits (n + 1) n [] (by omega)]
    simp
  rw [hm, hn] at h
  exact decDigits_inj m n (congrArg String.data h)

/-! ### Lemmas: the collision loop of `write` -/

theorem firstFreeAux_eq (fs : SFS) (mk : Nat → String) :
    ∀ (fuel start n : Nat), start ≤ n → n < start + fuel →
      (∀ m, start ≤ m → m < n → isFile fs (mk m) = true) →
      isFile fs (mk n) = false →
      firstFreeAux fs mk fuel start = n := by
  intro fuel
  induction fuel with
  | zero => omega
  | succ fuel ih =>
    intro start n h1 h2 hocc hfree
    rw [firstFreeAux]
    by_cases hs : start = n
    · subst hs
      simp [hfree]
    · have hstart : isFile fs (mk start) = true := hocc start le_rfl (by omega)
      rw [hstart]
      simp only [if_pos rfl]
      exact ih (start + 1) n (by omega) (by omega)
        (fun m hm1 hm2 => hocc m (by omega) hm2) hfree

theorem exists_free_key (fs : SFS) (mk : Nat → String)
    (hinj : ∀ a b, mk a = mk b → a = b) :
    ∃ n, 1 ≤ n ∧ n ≤ fs.length + 1 ∧ isFile fs (mk n) = false := by
  by_contra hc
  push_neg at hc
  have hall : ∀ n, 1 ≤ n → n ≤ fs.length + 1 → isFile fs (mk n) = true := by
    intro n h1 h2
    have := hc n h1 h2
    simpa using this
  have hsub : (Finset.Icc 1 (fs.length + 1)).image mk ⊆ (fs.map Prod.fst).toFinset := by
    intro k hk
    simp only [Finset.mem_image, Finset.mem_Icc] at hk
    obtain ⟨n, ⟨hn1, hn2⟩, rfl⟩ := hk
    have := hall n hn1 hn2
    simp only [isFile] at this
    exact List.mem_toFinset.mpr (mem_keys_of_lookupFS (by simp [this]))
  have hcard1 : ((Finset.Icc 1 (fs.length + 1)).image mk).card = fs.length + 1 := by
    rw [Finset.card_image_of_injective _ (fun a b h => hinj a b h)]
    simp [Nat.card_Icc]
  have hcard2 : ((fs.map Prod.fst).toFinset).card ≤ fs.length := by
    calc ((fs.map Prod.fst).toFinset).card ≤ (fs.map Prod.fst).length :=
          (fs.map Prod.fst).toFinset_card_le
      _ = fs.length := by simp
  have := Finset.card_le_card hsub
  omega

theorem firstFree_spec (fs : SFS) (mk : Nat → String)
    (hinj : ∀ a b, mk a = mk b → a = b) :
    1 ≤ firstFree fs mk ∧ isFile fs (mk (firstFree fs mk)) = false ∧
      (∀ m, 1 ≤ m → m < firstFree fs mk → isFile fs (mk m) = true) := by
  obtain ⟨n0, hn1, hn2, hnfree⟩ := exists_free_key fs mk hinj
  have hex : ∃ k, isFile fs (mk (k + 1)) = false := ⟨n0 - 1, by
    have : n0 - 1 + 1 = n0 := by omega
    rw [this]; exact hnfree⟩
  classical
  let j := Nat.find hex
  have hjfree : isFile fs (mk (j + 1)) = false := Nat.find_spec hex
  have hjmin : ∀ i < j, isFile fs (mk (i + 1)) = true := by
    intro i hi
    have := Nat.find_min hex hi
    simpa using this
  have hjle : j + 1 ≤ fs.length + 1 := by
    have : j ≤ n0 - 1 := Nat.find_le (by
      have : n0 - 1 + 1 = n0 := by omega
      rw [this]; exact hnfree)
    omega
  have heq : firstFree fs mk = j + 1 := by
    apply firstFreeAux_eq fs mk (fs.length + 1) 1 (j + 1) (by omega) (by omega)
    · intro m hm1 hm2
      have := hjmin (m - 1) (by omega)
      have hmm : m - 1 + 1 = m := by omega
      rwa [hmm] at this
    · exact hjfree
  refine ⟨by omega, ?_, ?_⟩
  · rw [heq]; exact hjfree
  · intro m hm1 hm2
    rw [heq] at hm2
    have := hjmin (m - 1) (by omega)
    have hmm : m - 1 + 1 = m := by omega
    rwa [hmm] at this

/-! ### Lemmas: string names -/

theorem splitOnChar_ne_nil (sep : Char) (l : List Char) : splitOnChar sep l ≠ [] := by
  cases l with
  | nil => simp [splitOnChar]
  | cons a rest =>
    rw [splitOnChar]
    rcases h : splitOnChar sep rest with _ | ⟨g, gs⟩
    · simp
    · by_cases ha : a = sep <;> simp [ha]

theorem normal_not_abs {name : String} (h : NormalName name) :
    strStartsWith name "/" = false := by
  by_contra hc
  have hpre : ("/".data).isPrefixOf name.data = true := by
    revert hc
    unfold strStartsWith
    cases ("/".data).isPrefixOf name.data <;> simp
  have hpre2 : ("/".data) <+: name.data := List.isPrefixOf_iff_prefix.mp hpre
  obtain ⟨t, ht⟩ := hpre2
  have hdata : name.data = '/' :: t := by
    rw [← ht]; rfl
  have hmem : ([] : List Char) ∈ splitOnChar '/' name.data := by
    rw [hdata, splitOnChar]
    rcases h2 : splitOnChar '/' t with _ | ⟨g, gs⟩
    · exact absurd h2 (splitOnChar_ne_nil '/' t)
    · simp
  exact absurd rfl (h.2 [] hmem).1

theorem startsWith_dotSlash_contains {name : String}
    (h : strStartsWith name "./" = true) : strContains name '.' = true := by
  have hpre : ("./".data) <+: name.data := List.isPrefixOf_iff_prefix.mp h
  obtain ⟨t, ht⟩ := hpre
  have hdata : name.data = '.' :: '/' :: t := by rw [← ht]; rfl
  unfold strContains
  rw [hdata]
  simp [List.contains]

theorem splitLastDot_of_not_mem : ∀ {l : List Char}, '.' ∉ l → splitLastDot l = none := by
  intro l
  induction l with
  | nil => intro _; rfl
  | cons c cs ih =>
    intro h
    have h1 : splitLastDot cs = none := ih (fun hm => h (List.mem_cons_of_mem c hm))
    have h2 : ¬ c = '.' := fun hceq => h (List.mem_cons.mpr (Or.inl hceq.symm))
    simp [splitLastDot, h1, h2]

theorem pySuffix_of_no_dot {name : String} (h : strContains name '.' = false) :
    pySuffix name = "" := by
  have hnm : '.' ∉ name.data := by
    intro hm
    rw [strContains, List.contains, List.elem_iff.mpr hm] at h
    exact Bool.true_eq_false.mp h
  unfold pySuffix pySuffixChars
  rw [splitLastDot_of_not_mem hnm]

theorem pySuffixChars_of_no_dot {l : List Char} (h : '.' ∉ l) :
    pySuffixChars l = [] := by
  unfold pySuffixChars
  rw [splitLastDot_of_not_mem h]

theorem pyWithSuffixEmpty_of_no_dot {name : String} (h : strContains name '.' = false) :
    pyWithSuffixEmpty name = name := by
  have hnm : '.' ∉ name.data := by
    intro hm
    rw [strContains, List.contains, List.elem_iff.mpr hm] at h
    exact Bool.true_eq_false.mp h
  unfold pyWithSuffixEmpty
  rw [pySuffixChars_of_no_dot hnm]
  simp only [List.length_nil, Nat.sub_zero, List.take_length]

theorem numberedName_inj {base ext : String} {a b : Nat}
    (h : numberedName base ext a = numberedName base ext b) : a = b := by
  have hd := congrArg String.data h
  simp only [numberedName, String.data_append] at hd
  have h2 := List.append_cancel_left (List.append_cancel_right hd)
  exact natRepr_inj (String.ext h2)

theorem joinRoot_inj {root a b : String} (h : joinRoot root a = joinRoot root b) :
    a = b := by
  have hd := congrArg String.data h
  simp only [joinRoot, String.data_append] at hd
  exact String.ext (List.append_cancel_left hd)

theorem key_ne_numberedKey (root base ext : String) (n : Nat) :
    joinRoot root (base ++ ext) ≠ joinRoot root (numberedName base ext n) := by
  intro h
  have hlen := congrArg String.length h
  simp only [joinRoot, numberedName, String.length_append] at hlen
  have h1 : ("_" : String).length = 1 := rfl
  rw [h1] at hlen
  omega

theorem mkKey_inj (root base ext : String) :
    ∀ a b : Nat,
      joinRoot root (numberedName base ext a) = joinRoot root (numberedName base ext b) →
        a = b :=
  fun _ _ h => numberedName_inj (joinRoot_inj h)

/-! ### Lemmas: the three branches of `write` -/

theorem write_of_not_exists (cfg : SConfig) (fs : SFS) (name c : String)
    (rw2 bk : Bool)
    (h0 : isFile fs (joinRoot cfg.root (pyWithSuffixEmpty name ++ effExt cfg name)) = false) :
    write cfg fs name (some c) rw2 bk =
      (writeText fs (joinRoot cfg.root (pyWithSuffixEmpty name ++ effExt cfg name)) c,
        pyWithSuffixEmpty name ++ effExt cfg name) := by
  simp [write, h0]

theorem write_of_exists_backup (cfg : SConfig) (fs : SFS) (name c : String)
    (h1 : isFile fs (joinRoot cfg.root (pyWithSuffixEmpty name ++ effExt cfg name)) = true) :
    write cfg fs name (some c) true true =
      (writeText
          (renameFS fs (joinRoot cfg.root (pyWithSuffixEmpty name ++ effExt cfg name))
            (joinRoot cfg.root
              (numberedName (pyWithSuffixEmpty name) (effExt cfg name)
                (firstFree fs (fun k =>
                  joinRoot cfg.root
                    (numberedName (pyWithSuffixEmpty name) (effExt cfg name) k))))))
          (joinRoot cfg.root (pyWithSuffixEmpty name ++ effExt cfg name)) c,
        pyWithSuffixEmpty name ++ effExt cfg name) := by
  simp [write, h1]

theorem write_of_exists_no_rewrite (cfg : SConfig) (fs : SFS) (name c : String)
    (bk : Bool)
    (h1 : isFile fs (joinRoot cfg.root (pyWithSuffixEmpty name ++ effExt cfg name)) = true) :
    write cfg fs name (some c) false bk =
      (writeText fs
          (joinRoot cfg.root
            (numberedName (pyWithSuffixEmpty name) (effExt cfg name)
              (firstFree fs (fun k =>
                joinRoot cfg.root
                  (numberedName (pyWithSuffixEmpty name) (effExt cfg name) k)))))
          c,
        numberedName (pyWithSuffixEmpty name) (effExt cfg name)
          (firstFree fs (fun k =>
            joinRoot cfg.root
              (numberedName (pyWithSuffixEmpty name) (effExt cfg name) k)))) := by
  simp [write, h1]

theorem isFile_writeText_ne (fs : SFS) (k c key : String) (h : key ≠ k) :
    isFile (writeText fs k c) key = isFile fs key := by
  rw [isFile, lookupFS_writeText_ne fs k c key h, isFile]

end Storage

namespace Storage

/-- C2: writing the same logical name twice with `backup_existing = true`
and `rewrite_existing = true`, starting from a state in which neither the
resolved name nor its first numbered sibling exists, leaves the second
content at the original resolved name and the first content at
`<base>_1<ext>` (the existing file is renamed to the first free numbered
name before the new content is written). -/
theorem write_twice_backup_rotates (cfg : SConfig) (fs : SFS) (name c1 c2 : String)
    (hnorm : NormalName name)
    (h0 : isFile fs (joinRoot cfg.root (pyWithSuffixEmpty name ++ effExt cfg name)) = false)
    (h1 : isFile fs (joinRoot cfg.root
        (numberedName (pyWithSuffixEmpty name) (effExt cfg name) 1)) = false) :
    (write cfg fs name (some c1) true true).2
        = pyWithSuffixEmpty name ++ effExt cfg name ∧
    (write cfg (write cfg fs name (some c1) true true).1 name (some c2) true true).2
        = pyWithSuffixEmpty name ++ effExt cfg name ∧
    lookupFS (write cfg (write cfg fs name (some c1) true true).1 name (some c2) true true).1
        (joinRoot cfg.root (pyWithSuffixEmpty name ++ effExt cfg name)) = some c2 ∧
    lookupFS (write cfg (write cfg fs name (some c1) true true).1 name (some c2) true true).1
        (joinRoot cfg.root (numberedName (pyWithSuffixEmpty name) (effExt cfg name) 1))
        = some c1 := by
  have e1 := write_of_not_exists cfg fs name c1 true true h0
  have hne1 : joinRoot cfg.root (numberedName (pyWithSuffixEmpty name) (effExt cfg name) 1)
      ≠ joinRoot cfg.root (pyWithSuffixEmpty name ++ effExt cfg name) :=
    Ne.symm (key_ne_numberedKey cfg.root (pyWithSuffixEmpty name) (effExt cfg name) 1)
  have hf1 : isFile
      (writeText fs (joinRoot cfg.root (pyWithSuffixEmpty name ++ effExt cfg name)) c1)
      (joinRoot cfg.root (pyWithSuffixEmpty name ++ effExt cfg name)) = true :=
    isFile_writeText_self _ _ _
  have hfree1 : isFile
      (writeText fs (joinRoot cfg.root (pyWithSuffixEmpty name ++ effExt cfg name)) c1)
      (joinRoot cfg.root (numberedName (pyWithSuffixEmpty name) (effExt cfg name) 1))
      = false := by
    rw [isFile_writeText_ne _ _ _ _ hne1]
    exact h1
  have hff : firstFree
      (writeText fs (joinRoot cfg.root (pyWithSuffixEmpty name ++ effExt cfg name)) c1)
      (fun k => joinRoot cfg.root (numberedName (pyWithSuffixEmpty name) (effExt cfg name) k))
      = 1 := by
    simp only [firstFree, firstFreeAux, hfree1]
    simp
  have e2 := write_of_exists_backup cfg
    (writeText fs (joinRoot cfg.root (pyWithSuffixEmpty name ++ effExt cfg name)) c1)
    name c2 hf1
  rw [hff] at e2
  refine ⟨by rw [e1], ?_, ?_, ?_⟩
  · rw [e1]
    simp only []
    rw [e2]
  · rw [e1]
    simp only []
    rw [e2]
    simp only []
    exact lookupFS_writeText_self _ _ _
  · rw [e1]
    simp only []
    rw [e2]
    simp only []
    rw [lookupFS_writeText_ne _ _ _ _ hne1]
    exact lookupFS_renameFS_new _ _ _ c1 (lookupFS_writeText_self _ _ _)

/-- C3: when the resolved target of `write` already exists and
`rewrite_existing = false`, the existing file is untouched (as is every
other file), the new content goes to the first non-existing numbered
sibling `<base>_<n><ext>` (`n = 1, 2, …`), and that numbered name is
returned — regardless of `backup_existing`. -/
theorem write_no_rewrite_preserves (cfg : SConfig) (fs : SFS) (name c : String)
    (bk : Bool) (hnorm : NormalName name)
    (hex : isFile fs (joinRoot cfg.root (pyWithSuffixEmpty name ++ effExt cfg name)) = true) :
    ∃ n, 1 ≤ n ∧
      isFile fs (joinRoot cfg.root
        (numberedName (pyWithSuffixEmpty name) (effExt cfg name) n)) = false ∧
      (∀ m, 1 ≤ m → m < n → isFile fs (joinRoot cfg.root
        (numberedName (pyWithSuffixEmpty name) (effExt cfg name) m)) = true) ∧
      (write cfg fs name (some c) false bk).2
        = numberedName (pyWithSuffixEmpty name) (effExt cfg name) n ∧
      lookupFS (write cfg fs name (some c) false bk).1
        (joinRoot cfg.root (numberedName (pyWithSuffixEmpty name) (effExt cfg name) n))
        = some c ∧
      (∀ key2, key2 ≠ joinRoot cfg.root
          (numberedName (pyWithSuffixEmpty name) (effExt cfg name) n) →
        lookupFS (write cfg fs name (some c) false bk).1 key2 = lookupFS fs key2) := by
  obtain ⟨hn1, hnfree, hnmin⟩ := firstFree_spec fs
    (fun k => joinRoot cfg.root (numberedName (pyWithSuffixEmpty name) (effExt cfg name) k))
    (mkKey_inj cfg.root (pyWithSuffixEmpty name) (effExt cfg name))
  have e := write_of_exists_no_rewrite cfg fs name c bk hex
  refine ⟨firstFree fs
    (fun k => joinRoot cfg.root (numberedName (pyWithSuffixEmpty name) (effExt cfg name) k)),
    hn1, hnfree, hnmin, by rw [e], ?_, ?_⟩
  · rw [e]
    simp only []
    exact lookupFS_writeText_self _ _ _
  · intro key2 hkey2
    rw [e]
    simp only []
    exact lookupFS_writeText_ne _ _ _ _ hkey2

/-- C6: for a relative, dot-free name in normal form, `write(name, content)`
followed by `read(name)` (default arguments) returns exactly the written
content, and both operations resolve the name to `<name><default_ext>`
under the root. -/
theorem write_then_read_roundtrip (cfg : SConfig) (fs : SFS) (name c : String)
    (hnorm : NormalName name) (hdot : strContains name '.' = false) :
    (write cfg fs name (some c) true true).2 = name ++ cfg.defaultExt ∧
    readTarget cfg (write cfg fs name (some c) true true).1 name
      = joinRoot cfg.root (name ++ cfg.defaultExt) ∧
    read cfg (write cfg fs name (some c) true true).1 name none
      = .ok (c, readModeOf cfg none) := by
  have hb : pyWithSuffixEmpty name = name := pyWithSuffixEmpty_of_no_dot hdot
  have hextq : effExt cfg name = cfg.defaultExt := by
    rw [effExt, pySuffix_of_no_dot hdot]
    simp
  have habs := normal_not_abs hnorm
  have hds : strStartsWith name "./" = false := by
    cases hsw : strStartsWith name "./"
    · rfl
    · exact absurd (startsWith_dotSlash_contains hsw) (by simp [hdot])
  have hmain : lookupFS (write cfg fs name (some c) true true).1
        (joinRoot cfg.root (name ++ cfg.defaultExt)) = some c ∧
      (write cfg fs name (some c) true true).2 = name ++ cfg.defaultExt := by
    by_cases hf : isFile fs
        (joinRoot cfg.root (pyWithSuffixEmpty name ++ effExt cfg name)) = true
    · have e := write_of_exists_backup cfg fs name c hf
      rw [hb, hextq] at e
      rw [e]
      exact ⟨lookupFS_writeText_self _ _ _, rfl⟩
    · have e := write_of_not_exists cfg fs name c true true (by simpa using hf)
      rw [hb, hextq] at e
      rw [e]
      exact ⟨lookupFS_writeText_self _ _ _, rfl⟩
  have hfile : isFile (write cfg fs name (some c) true true).1
      (joinRoot cfg.root (name ++ cfg.defaultExt)) = true := by
    rw [isFile, hmain.1]
    rfl
  have htgt : readTarget cfg (write cfg fs name (some c) true true).1 name
      = joinRoot cfg.root (name ++ cfg.defaultExt) := by
    rw [readTarget, if_pos ⟨habs, hds⟩]
    rw [hdot]
    simp only [Bool.false_eq_true, if_false, hfile]
    simp
  refine ⟨hmain.2, htgt, ?_⟩
  rw [read, htgt, hmain.1]

theorem mem_pyParents {q p : CPath} : q ∈ pyParents p ↔ q <+: p ∧ q ≠ p := by
  unfold pyParents
  rw [List.mem_filter, List.mem_inits]
  simp

theorem strStartsWith_joinRoot (r s : String) :
    strStartsWith (joinRoot r s) (r ++ "/") = true := by
  rw [strStartsWith, List.isPrefixOf_iff_prefix, joinRoot, String.data_append]
  exact List.prefix_append _ _

end Storage

namespace Storage

/-- C1: `clean` fails with the validation error exactly when the argument
resolved against the root is not a strict descendant of the resolved root,
and then deletes nothing; on a strict descendant it removes the whole
subtree when the target is an existing directory and is a no-op otherwise
(including when the target is an existing plain file). -/
theorem clean_guard_spec (rootC : CPath) (fs : FSys) (argAbs : Bool) (argC : CPath) :
    (¬ (resolveComps rootC <+: cleanTarget rootC argAbs argC ∧
        resolveComps rootC ≠ cleanTarget rootC argAbs argC) →
      clean rootC fs argAbs argC
        = .error "Cannot delete directories outside the storage path.") ∧
    (resolveComps rootC <+: cleanTarget rootC argAbs argC →
      resolveComps rootC ≠ cleanTarget rootC argAbs argC →
      clean rootC fs argAbs argC
        = .ok (if cleanTarget rootC argAbs argC ∈ fs.dirs
               then rmtree fs (cleanTarget rootC argAbs argC) else fs)) := by
  constructor
  · intro h
    simp only [clean]
    rw [if_neg (fun hm => h (mem_pyParents.mp hm))]
  · intro h1 h2
    simp only [clean]
    rw [if_pos (mem_pyParents.mpr ⟨h1, h2⟩)]
    by_cases hd : cleanTarget rootC argAbs argC ∈ fs.dirs
    · rw [if_pos hd, if_pos hd]
    · rw [if_neg hd, if_neg hd]

/-- C4 counterexample: when both the bare file and the
default-extension file exist, `read` opens the extended name — not the
bare one, as the claim requires when the bare name exists. -/
theorem readTarget_bare_claim_false :
    isFile [("/s/note", "bare"), ("/s/note.txt", "ext")] "/s/note" = true ∧
    readTarget ⟨"/s", ".txt", some "utf-8"⟩
      [("/s/note", "bare"), ("/s/note.txt", "ext")] "note" = "/s/note.txt" ∧
    ("/s/note.txt" : String) ≠ "/s/note" := by decide

/-- C4 (amended): for a relative, dot-free, not dot-slash-prefixed name,
`read` appends the default extension exactly when the file with the
appended extension exists; otherwise it opens the bare name under the root,
regardless of whether the bare file exists. -/
theorem readTarget_default_ext (cfg : SConfig) (fs : SFS) (name : String)
    (habs : strStartsWith name "/" = false)
    (hds : strStartsWith name "./" = false)
    (hdot : strContains name '.' = false) :
    (isFile fs (joinRoot cfg.root (name ++ cfg.defaultExt)) = true →
      readTarget cfg fs name = joinRoot cfg.root (name ++ cfg.defaultExt)) ∧
    (isFile fs (joinRoot cfg.root (name ++ cfg.defaultExt)) = false →
      readTarget cfg fs name = joinRoot cfg.root name) := by
  constructor
  · intro hf
    rw [readTarget, if_pos ⟨habs, hds⟩, hdot]
    simp [hf]
  · intro hf
    rw [readTarget, if_pos ⟨habs, hds⟩, hdot]
    simp [hf, String.append_empty]

/-- C5 counterexample: with a configured default encoding, `read` with the
encoding argument omitted decodes with that fixed default — the
`chardet` auto-detection branch is not taken. -/
theorem read_omitted_encoding_claim_false :
    read ⟨"/s", ".txt", some "utf-8"⟩ [("/s/a.txt", "hi")] "a.txt" none
      = .ok ("hi", .explicitEnc "utf-8") ∧
    DecodeMode.explicitEnc "utf-8" ≠ DecodeMode.chardetDetect := by decide

/-- C5 (amended): `read` with the encoding argument omitted uses the
configured default encoding when one is set; the raw-bytes /
`chardet.detect` branch is used only when the configured default is also
null. -/
theorem read_encoding_resolution (cfg : SConfig) (fs : SFS) (name c : String)
    (h : lookupFS fs (readTarget cfg fs name) = some c) :
    read cfg fs name none = .ok (c, readModeOf cfg none) ∧
    readModeOf cfg none = (match cfg.defaultEncoding with
      | none => DecodeMode.chardetDetect
      | some e => DecodeMode.explicitEnc e) := by
  constructor
  · rw [read, h]
  · rfl

/-- C7: `read_json` on a missing file returns any explicitly supplied
(non-null) default — falsy or not — and propagates the not-found error when
the default is omitted; when the file is found its content is parsed and
the parsed value returned. -/
theorem read_json_default_spec (V : Type) (loads : String → Except String V)
    (cfg : SConfig) (fs : SFS) (name : String) :
    (read cfg fs name none = .error .fileNotFound →
      (∀ d : V, read_json loads cfg fs name (some d) = .ok d) ∧
      read_json loads cfg fs name none = .error .fileNotFound) ∧
    (∀ s mode v, read cfg fs name none = .ok (s, mode) → loads s = .ok v →
      ∀ default, read_json loads cfg fs name default = .ok v) := by
  constructor
  · intro h
    constructor
    · intro d
      rw [read_json.eq_def, h]
    · rw [read_json.eq_def, h]
  · intro s mode v h hl default
    rw [read_json.eq_def, h]
    simp only []
    rw [hl]

/-- C9 counterexample: `read` of the relative, dot-slash-prefixed name
`./foo` opens `./foo` itself (resolved against the process working
directory), not a path under the root. -/
theorem read_dotslash_claim_false :
    readTarget ⟨"/s", ".txt", some "utf-8"⟩ [] "./foo" = "./foo" ∧
    strStartsWith "./foo" ("/s" ++ "/") = false ∧
    ("./foo" : String) ≠ joinRoot "/s" "./foo" := by decide

/-- C9 (amended): `abs_path` uses an absolute name as-is and joins a
relative name onto the root; `read` opens a path under the root for every
relative name that is not dot-slash-prefixed, but passes a
dot-slash-prefixed name through unchanged, bypassing the root join. -/
theorem resolve_path_spec (cfg : SConfig) (fs : SFS) (name : String) :
    (strStartsWith name "/" = true → abs_path cfg name = name) ∧
    (strStartsWith name "/" = false → abs_path cfg name = joinRoot cfg.root name) ∧
    (strStartsWith name "/" = false → strStartsWith name "./" = false →
      strStartsWith (readTarget cfg fs name) (cfg.root ++ "/") = true) ∧
    (strStartsWith name "/" = false → strStartsWith name "./" = true →
      readTarget cfg fs name = name) := by
  refine ⟨?_, ?_, ?_, ?_⟩
  · intro h
    rw [abs_path, if_pos h]
  · intro h
    rw [abs_path, if_neg (by rw [h]; exact Bool.false_ne_true)]
  · intro h1 h2
    rw [readTarget, if_pos ⟨h1, h2⟩]
    by_cases hc : strContains name '.'
    · simp only [hc, if_true]
      exact strStartsWith_joinRoot _ _
    · simp only [hc]
      simp only [Bool.false_eq_true, if_false]
      exact strStartsWith_joinRoot _ _
  · intro h1 h2
    rw [readTarget, if_neg (fun hand => by rw [h2] at hand; exact Bool.true_eq_false.mp hand.2)]

end Storage

namespace Storage

/-! ### Lemmas: the directory-copy loop -/

theorem writesTo_dir (src dest : CPath) (excs : List String) (d k : CPath) :
    writesTo src dest excs (d, none) k = none := rfl

theorem writesTo_file (src dest : CPath) (excs : List String) (p : CPath)
    (c : String) (k : CPath) :
    writesTo src dest excs (p, some c) k =
      if matchAny excs (asPosix (relTo p src)) = true then none
      else if dest ++ relTo p src = k then some c else none := by
  rw [writesTo, entryWrite]
  by_cases hm : matchAny excs (asPosix (relTo p src)) = true
  · rw [if_pos hm]
    simp [hm]
  · rw [if_neg hm]
    simp [hm]

theorem lookupP_filter_ne (l : List (CPath × String)) (p k : CPath) (h : k ≠ p) :
    lookupP (l.filter (fun q => !(q.1 == p))) k = lookupP l k := by
  induction l with
  | nil => rfl
  | cons q rest ih =>
    by_cases hq : q.1 = p
    · have h2 : (q :: rest).filter (fun q2 => !(q2.1 == p)) = rest.filter (fun q2 => !(q2.1 == p)) := by
        simp [List.filter_cons, hq]
      have h3 : k ≠ q.1 := fun hk => h (hk.trans hq)
      rw [h2, ih, lookupP, if_neg h3]
    · have h2 : (q :: rest).filter (fun q2 => !(q2.1 == p)) = q :: rest.filter (fun q2 => !(q2.1 == p)) := by
        simp [List.filter_cons, hq]
      rw [h2, lookupP, lookupP, ih]

theorem lookupP_insertFile_self (fs : FSys) (p : CPath) (c : String) :
    lookupP (insertFile fs p c).files p = some c := by
  simp [insertFile, lookupP]

theorem lookupP_insertFile_ne (fs : FSys) (p : CPath) (c : String) (k : CPath)
    (h : k ≠ p) :
    lookupP (insertFile fs p c).files k = lookupP fs.files k := by
  simp only [insertFile]
  rw [lookupP, if_neg h, lookupP_filter_ne _ _ _ h]

theorem copyStep_files_lookup (src dest : CPath) (excs : List String) (fs : FSys)
    (e : CPath × Option String) (k : CPath) :
    lookupP (copyStep src dest excs fs e).files k =
      match writesTo src dest excs e k with
      | some c => some c
      | none => lookupP fs.files k := by
  rcases e with ⟨p, oc⟩
  rcases oc with _ | c
  · rw [writesTo_dir]
    by_cases hm : matchAny excs (asPosix (relTo p src)) = true
    · simp [copyStep, hm]
    · simp [copyStep, hm, mkdirParents]
  · rw [writesTo_file]
    by_cases hm : matchAny excs (asPosix (relTo p src)) = true
    · rw [if_pos hm]
      simp [copyStep, hm]
    · rw [if_neg hm]
      by_cases hk : dest ++ relTo p src = k
      · rw [if_pos hk]
        have h2 : lookupP (copyStep src dest excs fs (p, some c)).files k
            = some c := by
          simp only [copyStep]
          rw [if_neg (by simpa using hm)]
          rw [← hk]
          exact lookupP_insertFile_self _ _ _
        rw [h2]
      · rw [if_neg hk]
        have hk2 : k ≠ dest ++ relTo p src := fun h2 => hk h2.symm
        have h2 : lookupP (copyStep src dest excs fs (p, some c)).files k
            = lookupP fs.files k := by
          simp only [copyStep]
          rw [if_neg (by simpa using hm)]
          have h3 := lookupP_insertFile_ne
            (mkdirParents fs (dest ++ relTo p src).dropLast)
            (dest ++ relTo p src) c k hk2
          simpa [mkdirParents] using h3
        rw [h2]

theorem foldl_copyStep_lookup (src dest : CPath) (excs : List String) (k : CPath) :
    ∀ (l : List (CPath × Option String)) (fs : FSys),
      lookupP ((l.foldl (copyStep src dest excs) fs).files) k =
        match lastWrite (fun e => writesTo src dest excs e k) l with
        | some c => some c
        | none => lookupP fs.files k := by
  intro l
  induction l with
  | nil => intro fs; rfl
  | cons e t ih =>
    intro fs
    rw [List.foldl_cons, ih (copyStep src dest excs fs e), copyStep_files_lookup]
    rw [lastWrite]
    rcases lastWrite (fun e2 => writesTo src dest excs e2 k) t with _ | c
    · simp only []
    · simp only []

theorem lastWrite_append (w : CPath × Option String → Option String)
    (l1 l2 : List (CPath × Option String)) :
    lastWrite w (l1 ++ l2) =
      match lastWrite w l2 with
      | some c => some c
      | none => lastWrite w l1 := by
  induction l1 with
  | nil =>
    simp only [List.nil_append]
    rcases lastWrite w l2 with _ | c <;> rfl
  | cons e t ih =>
    rw [List.cons_append, lastWrite, ih, lastWrite]
    rcases lastWrite w l2 with _ | c <;> rcases lastWrite w t with _ | c2 <;> simp

theorem lastWrite_eq_none (w : CPath × Option String → Option String)
    (l : List (CPath × Option String)) (h : ∀ e ∈ l, w e = none) :
    lastWrite w l = none := by
  induction l with
  | nil => rfl
  | cons e t ih =>
    rw [lastWrite, ih (fun e2 he2 => h e2 (List.mem_cons_of_mem e he2))]
    exact h e (List.mem_cons_self e t)

theorem relTo_append (src t : CPath) : relTo (src ++ t) src = t := by
  rw [relTo]
  exact List.drop_left src t

theorem append_relTo {src p : CPath} (h : src <+: p) : src ++ relTo p src = p := by
  obtain ⟨t, rfl⟩ := h
  rw [relTo_append]

theorem strictUnder_iff {src p : CPath} :
    strictUnder src p = true ↔ src <+: p ∧ ¬ src = p := by
  rw [strictUnder, Bool.and_eq_true, List.isPrefixOf_iff_prefix,
    Bool.not_eq_true', beq_eq_false_iff_ne]

theorem append_ne_self_of_ne_nil {src r : CPath} (hr : r ≠ []) : ¬ src = src ++ r := by
  intro h
  have hlen := congrArg List.length h
  rw [List.length_append] at hlen
  have : r.length = 0 := by omega
  exact hr (List.length_eq_zero.mp this)

theorem writesTo_dirEntry (src dest : CPath) (excs : List String) (d : CPath)
    (k : CPath) : writesTo src dest excs (d, none) k = none := rfl

theorem lastWrite_dirEntries (src dest : CPath) (excs : List String) (k : CPath)
    (ds : List CPath) :
    lastWrite (fun e => writesTo src dest excs e k) (ds.map (fun d => (d, none))) = none := by
  apply lastWrite_eq_none
  intro e he
  obtain ⟨d, _, rfl⟩ := List.mem_map.mp he
  rfl

theorem lastWrite_fileEntries_of_not_key (src dest : CPath) (excs : List String)
    (r : CPath) (files : List (CPath × String))
    (hno : (src ++ r) ∉ files.map Prod.fst) :
    lastWrite (fun e => writesTo src dest excs e (dest ++ r))
      ((files.filter (fun f => strictUnder src f.1)).map (fun f => (f.1, some f.2)))
      = none := by
  apply lastWrite_eq_none
  intro e he
  obtain ⟨f, hf, rfl⟩ := List.mem_map.mp he
  obtain ⟨hfm, hfu⟩ := List.mem_filter.mp hf
  have hpre : src <+: f.1 := (strictUnder_iff.mp hfu).1
  rw [writesTo_file]
  by_cases hm : matchAny excs (asPosix (relTo f.1 src)) = true
  · rw [if_pos hm]
  · rw [if_neg hm]
    rw [if_neg]
    intro h2
    have h3 : relTo f.1 src = r := List.append_cancel_left h2
    have h4 : f.1 = src ++ r := by rw [← h3, append_relTo hpre]
    exact hno (h4 ▸ List.mem_map_of_mem Prod.fst hfm)

theorem lastWrite_fileEntries_of_match (src dest : CPath) (excs : List String)
    (r : CPath) (files : List (CPath × String))
    (hm : matchAny excs (asPosix r) = true) :
    lastWrite (fun e => writesTo src dest excs e (dest ++ r))
      ((files.filter (fun f => strictUnder src f.1)).map (fun f => (f.1, some f.2)))
      = none := by
  apply lastWrite_eq_none
  intro e he
  obtain ⟨f, hf, rfl⟩ := List.mem_map.mp he
  obtain ⟨hfm, hfu⟩ := List.mem_filter.mp hf
  rw [writesTo_file]
  by_cases hm2 : matchAny excs (asPosix (relTo f.1 src)) = true
  · rw [if_pos hm2]
  · rw [if_neg hm2]
    rw [if_neg]
    intro h2
    have h3 : relTo f.1 src = r := List.append_cancel_left h2
    rw [h3] at hm2
    exact hm2 hm

theorem lastWrite_fileEntries_of_lookup (src dest : CPath) (excs : List String)
    (r : CPath) (c : String) :
    ∀ (files : List (CPath × String)),
      (files.map Prod.fst).Nodup → r ≠ [] →
      lookupP files (src ++ r) = some c →
      matchAny excs (asPosix r) = false →
      lastWrite (fun e => writesTo src dest excs e (dest ++ r))
        ((files.filter (fun f => strictUnder src f.1)).map (fun f => (f.1, some f.2)))
        = some c := by
  intro files
  induction files with
  | nil => intro _ _ hlk _; simp [lookupP] at hlk
  | cons f rest ih =>
    intro hnd hr hlk hm
    have hnd' : (f.1 :: rest.map Prod.fst).Nodup := by
      rw [List.map_cons] at hnd
      exact hnd
    have hhead : f.1 ∉ rest.map Prod.fst := (List.nodup_cons.mp hnd').1
    have hnd2 : (rest.map Prod.fst).Nodup := (List.nodup_cons.mp hnd').2
    by_cases hf1 : f.1 = src ++ r
    · have hc : f.2 = c := by
        rw [lookupP, if_pos hf1.symm] at hlk
        exact Option.some.inj hlk
      have hfu : strictUnder src f.1 = true := by
        rw [strictUnder_iff, hf1]
        exact ⟨List.prefix_append src r, append_ne_self_of_ne_nil hr⟩
      have hnokey : (src ++ r) ∉ rest.map Prod.fst := hf1 ▸ hhead
      rw [List.filter_cons, if_pos (by simp [hfu]), List.map_cons, lastWrite,
        lastWrite_fileEntries_of_not_key src dest excs r rest hnokey]
      have hrel : relTo f.1 src = r := by rw [hf1, relTo_append]
      show writesTo src dest excs (f.1, some f.2) (dest ++ r) = some c
      rw [writesTo_file, hrel, if_neg (by simp [hm]), if_pos rfl, hc]
    · have hlk2 : lookupP rest (src ++ r) = some c := by
        rw [lookupP, if_neg (fun h2 => hf1 h2.symm)] at hlk
        exact hlk
      have ihr := ih hnd2 hr hlk2 hm
      cases hfu : strictUnder src f.1
      · rw [List.filter_cons, if_neg (by simp [hfu])]
        exact ihr
      · rw [List.filter_cons, if_pos (by simp [hfu]), List.map_cons, lastWrite, ihr]

theorem copyStep_dirs_mono (src dest : CPath) (excs : List String) (fs : FSys)
    (e : CPath × Option String) (q : CPath) (h : q ∈ fs.dirs) :
    q ∈ (copyStep src dest excs fs e).dirs := by
  rw [copyStep]
  by_cases hm : matchAny excs (asPosix (relTo e.1 src)) = true
  · rw [if_pos hm]; exact h
  · rw [if_neg hm]
    rcases e with ⟨p, _ | c⟩
    · simp only [mkdirParents]
      exact List.mem_append_right _ h
    · simp only [insertFile, mkdirParents]
      exact List.mem_append_right _ h

theorem foldl_copyStep_dirs_mono (src dest : CPath) (excs : List String) (q : CPath) :
    ∀ (l : List (CPath × Option String)) (fs : FSys), q ∈ fs.dirs →
      q ∈ ((l.foldl (copyStep src dest excs) fs)).dirs := by
  intro l
  induction l with
  | nil => intro fs h; exact h
  | cons e t ih =>
    intro fs h
    rw [List.foldl_cons]
    exact ih _ (copyStep_dirs_mono src dest excs fs e q h)

theorem foldl_copyStep_dirs_add (src dest : CPath) (excs : List String) (q : CPath)
    (e : CPath × Option String) :
    ∀ (l : List (CPath × Option String)) (fs : FSys), e ∈ l →
      (∀ fs2 : FSys, q ∈ (copyStep src dest excs fs2 e).dirs) →
      q ∈ ((l.foldl (copyStep src dest excs) fs)).dirs := by
  intro l
  induction l with
  | nil => intro fs h; exact absurd h (List.not_mem_nil e)
  | cons a t ih =>
    intro fs he hadd
    rw [List.foldl_cons]
    rcases List.mem_cons.mp he with rfl | ht
    · exact foldl_copyStep_dirs_mono src dest excs q t _ (hadd fs)
    · exact ih _ ht hadd

theorem mem_of_lookupP : ∀ {l : List (CPath × String)} {k : CPath} {v : String},
    lookupP l k = some v → (k, v) ∈ l := by
  intro l
  induction l with
  | nil => intro k v h; simp [lookupP] at h
  | cons p rest ih =>
    intro k v h
    rw [lookupP] at h
    by_cases hk : k = p.1
    · rw [if_pos hk] at h
      have h2 : p.2 = v := Option.some.inj h
      have hp : p = (k, v) := Prod.ext hk.symm h2
      rw [hp]
      exact List.mem_cons_self _ _
    · rw [if_neg hk] at h
      exact List.mem_cons_of_mem p (ih h)

theorem copy_dir_eq (rootC : CPath) (fs : FSys) (src dest : CPath)
    (excs : List String) (hsrc : src ∈ fs.dirs) :
    copy rootC fs true src true dest excs =
      (rglobEntries (mkdirParents fs dest) src).foldl
        (copyStep src dest excs) (mkdirParents fs dest) := by
  simp [copy, hsrc]

theorem copy_file_lookup_unmatched (rootC : CPath) (fs : FSys) (src dest : CPath)
    (excs : List String) (r : CPath) (c : String)
    (hsrc : src ∈ fs.dirs) (hnd : (fs.files.map Prod.fst).Nodup)
    (hr : r ≠ []) (hlk : lookupP fs.files (src ++ r) = some c)
    (hm : matchAny excs (asPosix r) = false) :
    lookupP (copy rootC fs true src true dest excs).files (dest ++ r) = some c := by
  rw [copy_dir_eq rootC fs src dest excs hsrc, foldl_copyStep_lookup, rglobEntries,
    lastWrite_append]
  rw [show (mkdirParents fs dest).files = fs.files from rfl]
  rw [lastWrite_fileEntries_of_lookup src dest excs r c fs.files hnd hr hlk hm]

theorem copy_file_lookup_matched (rootC : CPath) (fs : FSys) (src dest : CPath)
    (excs : List String) (r : CPath)
    (hsrc : src ∈ fs.dirs)
    (hm : matchAny excs (asPosix r) = true) :
    lookupP (copy rootC fs true src true dest excs).files (dest ++ r)
      = lookupP fs.files (dest ++ r) := by
  rw [copy_dir_eq rootC fs src dest excs hsrc, foldl_copyStep_lookup, rglobEntries,
    lastWrite_append]
  rw [show (mkdirParents fs dest).files = fs.files from rfl]
  rw [lastWrite_fileEntries_of_match src dest excs r fs.files hm]
  rw [lastWrite_dirEntries]

theorem copy_creates_dir_for_unmatched (rootC : CPath) (fs : FSys) (src dest : CPath)
    (excs : List String) (rd : CPath)
    (hsrc : src ∈ fs.dirs) (hrd : rd ≠ []) (hd : src ++ rd ∈ fs.dirs)
    (hm : matchAny excs (asPosix rd) = false) :
    dest ++ rd ∈ (copy rootC fs true src true dest excs).dirs := by
  rw [copy_dir_eq rootC fs src dest excs hsrc]
  apply foldl_copyStep_dirs_add src dest excs (dest ++ rd) (src ++ rd, none)
  · rw [rglobEntries]
    apply List.mem_append_left
    apply List.mem_map_of_mem
    rw [List.mem_filter]
    refine ⟨List.mem_append_right _ hd, ?_⟩
    have h2 : strictUnder src (src ++ rd) = true :=
      strictUnder_iff.mpr ⟨List.prefix_append _ _, append_ne_self_of_ne_nil hrd⟩
    simp [h2]
  · intro fs2
    have hm2 : ¬ matchAny excs (asPosix (relTo (src ++ rd) src)) = true := by
      rw [relTo_append, hm]
      exact Bool.false_ne_true
    simp only [copyStep]
    rw [if_neg hm2]
    simp only [mkdirParents]
    apply List.mem_append_left
    rw [List.mem_inits, relTo_append]

theorem copy_creates_parents_for_file (rootC : CPath) (fs : FSys) (src dest : CPath)
    (excs : List String) (rf : CPath) (c : String) (q : CPath)
    (hsrc : src ∈ fs.dirs) (hrf : rf ≠ [])
    (hlk : lookupP fs.files (src ++ rf) = some c)
    (hm : matchAny excs (asPosix rf) = false)
    (hq : q <+: (dest ++ rf).dropLast) :
    q ∈ (copy rootC fs true src true dest excs).dirs := by
  rw [copy_dir_eq rootC fs src dest excs hsrc]
  apply foldl_copyStep_dirs_add src dest excs q (src ++ rf, some c)
  · rw [rglobEntries]
    apply List.mem_append_right
    have hmem : (src ++ rf, c) ∈ fs.files := mem_of_lookupP hlk
    have h2 : strictUnder src (src ++ rf) = true :=
      strictUnder_iff.mpr ⟨List.prefix_append _ _, append_ne_self_of_ne_nil hrf⟩
    have h3 : (src ++ rf, c) ∈
        (mkdirParents fs dest).files.filter (fun f => strictUnder src f.1) := by
      rw [show (mkdirParents fs dest).files = fs.files from rfl, List.mem_filter]
      exact ⟨hmem, by simp [h2]⟩
    exact List.mem_map_of_mem (fun f => (f.1, some f.2)) h3
  · intro fs2
    have hm2 : ¬ matchAny excs (asPosix (relTo (src ++ rf) src)) = true := by
      rw [relTo_append, hm]
      exact Bool.false_ne_true
    simp only [copyStep]
    rw [if_neg hm2]
    simp only [insertFile, mkdirParents]
    apply List.mem_append_left
    rw [List.mem_inits, relTo_append]
    exact hq

end Storage

namespace Storage

/-- C8: copying a directory omits exactly the files whose paths relative to
the source match an exclusion pattern: every non-matching file is copied to
the same relative location under the destination (its source directories
being recreated there), and for a matching file the corresponding
destination path is left untouched. -/
theorem copy_excludes_matching_files (rootC : CPath) (fs : FSys) (src dest : CPath)
    (excs : List String)
    (hwf : (fs.files.map Prod.fst).Nodup)
    (hsrc : src ∈ fs.dirs)
    (hsd : ¬ src <+: dest) (hds : ¬ dest <+: src) :
    (∀ r c, r ≠ [] → lookupP fs.files (src ++ r) = some c →
      (matchAny excs (asPosix r) = false →
        lookupP (copy rootC fs true src true dest excs).files (dest ++ r) = some c) ∧
      (matchAny excs (asPosix r) = true →
        lookupP (copy rootC fs true src true dest excs).files (dest ++ r)
          = lookupP fs.files (dest ++ r))) ∧
    (∀ rd, rd ≠ [] → src ++ rd ∈ fs.dirs → matchAny excs (asPosix rd) = false →
      dest ++ rd ∈ (copy rootC fs true src true dest excs).dirs) := by
  refine ⟨fun r c hr hlk => ⟨fun hm => ?_, fun hm => ?_⟩, fun rd hrd hd hm => ?_⟩
  · exact copy_file_lookup_unmatched rootC fs src dest excs r c hsrc hwf hr hlk hm
  · exact copy_file_lookup_matched rootC fs src dest excs r hsrc hm
  · exact copy_creates_dir_for_unmatched rootC fs src dest excs rd hsrc hrd hd hm

/-- C10: when a directory inside the source matches an exclusion pattern,
only that entry itself is skipped: a file beneath it whose own relative
path matches no pattern is still copied to the destination, and the
excluded directory is recreated at the destination as its parent. -/
theorem copy_excluded_dir_children_copied (rootC : CPath) (fs : FSys)
    (src dest : CPath) (excs : List String) (rd rf : CPath) (c : String)
    (hwf : (fs.files.map Prod.fst).Nodup)
    (hsrc : src ∈ fs.dirs)
    (hsd : ¬ src <+: dest) (hds : ¬ dest <+: src)
    (hrd : rd ≠ []) (hdir : src ++ rd ∈ fs.dirs)
    (hmd : matchAny excs (asPosix rd) = true)
    (hpre : rd <+: rf) (hne : rd ≠ rf)
    (hlk : lookupP fs.files (src ++ rf) = some c)
    (hmf : matchAny excs (asPosix rf) = false) :
    lookupP (copy rootC fs true src true dest excs).files (dest ++ rf) = some c ∧
    dest ++ rd ∈ (copy rootC fs true src true dest excs).dirs := by
  obtain ⟨s, rfl⟩ := hpre
  have hs : s ≠ [] := by
    intro h
    rw [h, List.append_nil] at hne
    exact hne rfl
  have hrf : rd ++ s ≠ [] := by
    intro h
    exact hrd (List.append_eq_nil.mp h).1
  constructor
  · exact copy_file_lookup_unmatched rootC fs src dest excs (rd ++ s) c hsrc hwf
      hrf hlk hmf
  · apply copy_creates_parents_for_file rootC fs src dest excs (rd ++ s) c
      (dest ++ rd) hsrc hrf hlk hmf
    rw [show dest ++ (rd ++ s) = (dest ++ rd) ++ s from (List.append_assoc _ _ _).symm]
    rw [List.dropLast_append]
    rw [if_neg (by simp [hs])]
    exact List.prefix_append _ _

end Storage


namespace Storage

/-- Witness for C1: `clean("..")` on a root `/s` hits the traversal guard. -/
theorem clean_guard_spec_witness :
    clean ["s"] ⟨[["s"]], []⟩ false [".."]
      = .error "Cannot delete directories outside the storage path." :=
  (clean_guard_spec ["s"] ⟨[["s"]], []⟩ false [".."]).1 (by decide)

/-- Witness for C2: two writes of `note` put the second content at
`note.txt` and the first at `note_1.txt`. -/
theorem write_twice_backup_rotates_witness :
    lookupFS (write ⟨"/s", ".txt", some "utf-8"⟩
        (write ⟨"/s", ".txt", some "utf-8"⟩ [] "note" (some "hello") true true).1
        "note" (some "world") true true).1
        "/s/note.txt" = some "world" ∧
    lookupFS (write ⟨"/s", ".txt", some "utf-8"⟩
        (write ⟨"/s", ".txt", some "utf-8"⟩ [] "note" (some "hello") true true).1
        "note" (some "world") true true).1
        "/s/note_1.txt" = some "hello" :=
  ⟨(write_twice_backup_rotates ⟨"/s", ".txt", some "utf-8"⟩ [] "note" "hello" "world"
      (by decide) (by decide) (by decide)).2.2.1,
   (write_twice_backup_rotates ⟨"/s", ".txt", some "utf-8"⟩ [] "note" "hello" "world"
      (by decide) (by decide) (by decide)).2.2.2⟩

/-- Witness for C3: a no-rewrite write over an existing `note.txt` goes to
a fresh numbered sibling, leaving every other file unchanged. -/
theorem write_no_rewrite_preserves_witness :
    ∃ n, 1 ≤ n ∧
      isFile [("/s/note.txt", "old")] (joinRoot "/s"
        (numberedName (pyWithSuffixEmpty "note") (effExt ⟨"/s", ".txt", some "utf-8"⟩ "note") n))
        = false ∧
      (∀ m, 1 ≤ m → m < n → isFile [("/s/note.txt", "old")] (joinRoot "/s"
        (numberedName (pyWithSuffixEmpty "note") (effExt ⟨"/s", ".txt", some "utf-8"⟩ "note") m))
        = true) ∧
      (write ⟨"/s", ".txt", some "utf-8"⟩ [("/s/note.txt", "old")] "note" (some "new") false true).2
        = numberedName (pyWithSuffixEmpty "note") (effExt ⟨"/s", ".txt", some "utf-8"⟩ "note") n ∧
      lookupFS (write ⟨"/s", ".txt", some "utf-8"⟩ [("/s/note.txt", "old")] "note"
          (some "new") false true).1
        (joinRoot "/s"
          (numberedName (pyWithSuffixEmpty "note") (effExt ⟨"/s", ".txt", some "utf-8"⟩ "note") n))
        = some "new" ∧
      (∀ key2, key2 ≠ joinRoot "/s"
          (numberedName (pyWithSuffixEmpty "note") (effExt ⟨"/s", ".txt", some "utf-8"⟩ "note") n) →
        lookupFS (write ⟨"/s", ".txt", some "utf-8"⟩ [("/s/note.txt", "old")] "note"
            (some "new") false true).1 key2
          = lookupFS [("/s/note.txt", "old")] key2) :=
  write_no_rewrite_preserves ⟨"/s", ".txt", some "utf-8"⟩ [("/s/note.txt", "old")]
    "note" "new" true (by decide) (by decide)

/-- Witness for C4 (amended): with `note.txt` present, `read "note"` opens
`/s/note.txt`. -/
theorem readTarget_default_ext_witness :
    readTarget ⟨"/s", ".txt", some "utf-8"⟩ [("/s/note.txt", "x")] "note"
      = "/s/note.txt" :=
  (readTarget_default_ext ⟨"/s", ".txt", some "utf-8"⟩ [("/s/note.txt", "x")] "note"
    (by decide) (by decide) (by decide)).1 (by decide)

/-- Witness for C5 (amended): with no configured default encoding, an
omitted encoding argument leads to the `chardet` branch. -/
theorem read_encoding_resolution_witness :
    read ⟨"/s", ".txt", none⟩ [("/s/a.txt", "hi")] "a.txt" none
      = .ok ("hi", DecodeMode.chardetDetect) ∧
    readModeOf ⟨"/s", ".txt", none⟩ none = DecodeMode.chardetDetect :=
  read_encoding_resolution ⟨"/s", ".txt", none⟩ [("/s/a.txt", "hi")] "a.txt" "hi"
    (by decide)

/-- Witness for C6: `write("note", "hello")` then `read("note")` round-trips
through `/s/note.txt`. -/
theorem write_then_read_roundtrip_witness :
    (write ⟨"/s", ".txt", some "utf-8"⟩ [] "note" (some "hello") true true).2
      = "note" ++ ".txt" ∧
    readTarget ⟨"/s", ".txt", some "utf-8"⟩
        (write ⟨"/s", ".txt", some "utf-8"⟩ [] "note" (some "hello") true true).1 "note"
      = "/s/note.txt" ∧
    read ⟨"/s", ".txt", some "utf-8"⟩
        (write ⟨"/s", ".txt", some "utf-8"⟩ [] "note" (some "hello") true true).1 "note" none
      = .ok ("hello", DecodeMode.explicitEnc "utf-8") :=
  write_then_read_roundtrip ⟨"/s", ".txt", some "utf-8"⟩ [] "note" "hello"
    (by decide) (by decide)

/-- Witness for C7: `read_json` of a missing file with the falsy default
`0` returns `0`. -/
theorem read_json_default_spec_witness :
    read_json (fun s => .ok s.length) ⟨"/s", ".txt", some "utf-8"⟩ [] "conf" (some 0)
      = .ok 0 :=
  ((read_json_default_spec Nat (fun s => .ok s.length) ⟨"/s", ".txt", some "utf-8"⟩
    [] "conf").1 (by decide)).1 0

/-- Witness for C8: copying `/s/src` to `/s/dst` with exclusion `*.log`
copies `a.txt` and leaves the destination spot of `b.log` untouched. -/
theorem copy_excludes_matching_files_witness :
    lookupP (copy ["s"]
        ⟨[["s"], ["s", "src"]], [(["s", "src", "a.txt"], "A"), (["s", "src", "b.log"], "B")]⟩
        true ["s", "src"] true ["s", "dst"] ["*.log"]).files
      (["s", "dst"] ++ ["a.txt"]) = some "A" ∧
    lookupP (copy ["s"]
        ⟨[["s"], ["s", "src"]], [(["s", "src", "a.txt"], "A"), (["s", "src", "b.log"], "B")]⟩
        true ["s", "src"] true ["s", "dst"] ["*.log"]).files
      (["s", "dst"] ++ ["b.log"])
      = lookupP [(["s", "src", "a.txt"], "A"), (["s", "src", "b.log"], "B")]
          (["s", "dst"] ++ ["b.log"]) :=
  ⟨((copy_excludes_matching_files ["s"]
      ⟨[["s"], ["s", "src"]], [(["s", "src", "a.txt"], "A"), (["s", "src", "b.log"], "B")]⟩
      ["s", "src"] ["s", "dst"] ["*.log"]
      (by decide) (by decide) (by decide) (by decide)).1
      ["a.txt"] "A" (by decide) (by decide)).1 (by decide),
   ((copy_excludes_matching_files ["s"]
      ⟨[["s"], ["s", "src"]], [(["s", "src", "a.txt"], "A"), (["s", "src", "b.log"], "B")]⟩
      ["s", "src"] ["s", "dst"] ["*.log"]
      (by decide) (by decide) (by decide) (by decide)).1
      ["b.log"] "B" (by decide) (by decide)).2 (by decide)⟩

/-- Witness for C9 (amended): an absolute name is used as-is by
`abs_path`, and a plain relative name is opened under the root by `read`. -/
theorem resolve_path_spec_witness :
    abs_path ⟨"/s", ".txt", some "utf-8"⟩ "/etc/x" = "/etc/x" ∧
    strStartsWith (readTarget ⟨"/s", ".txt", some "utf-8"⟩ [] "note")
      ("/s" ++ "/") = true :=
  ⟨(resolve_path_spec ⟨"/s", ".txt", some "utf-8"⟩ [] "/etc/x").1 (by decide),
   (resolve_path_spec ⟨"/s", ".txt", some "utf-8"⟩ [] "note").2.2.1
     (by decide) (by decide)⟩

/-- Witness for C10: with directory `skipme` excluded, the non-matching
file `skipme/keep.txt` is still copied and `dst/skipme` is created. -/
theorem copy_excluded_dir_children_copied_witness :
    lookupP (copy ["s"]
        ⟨[["s"], ["s", "src"], ["s", "src", "skipme"]],
          [(["s", "src", "skipme", "keep.txt"], "K")]⟩
        true ["s", "src"] true ["s", "dst"] ["skipme"]).files
      (["s", "dst"] ++ ["skipme", "keep.txt"]) = some "K" ∧
    ["s", "dst"] ++ ["skipme"] ∈ (copy ["s"]
        ⟨[["s"], ["s", "src"], ["s", "src", "skipme"]],
          [(["s", "src", "skipme", "keep.txt"], "K")]⟩
        true ["s", "src"] true ["s", "dst"] ["skipme"]).dirs :=
  copy_excluded_dir_children_copied ["s"]
    ⟨[["s"], ["s", "src"], ["s", "src", "skipme"]],
      [(["s", "src", "skipme", "keep.txt"], "K")]⟩
    ["s", "src"] ["s", "dst"] ["skipme"] ["skipme"] ["skipme", "keep.txt"] "K"
    (by decide) (by decide) (by decide) (by decide) (by decide) (by decide)
    (by decide) (by decide) (by decide) (by decide) (by decide)

end Storage
